import Mathlib

/-! # Cockatrice: `GameInfoOverlay` statistics

A shallow embedding of `cockatrice/src/game/game_info_overlay.cpp`:
the card-type classifier `getMainCardType` and the statistics pass
`calculateStatistics` / `updateStatistics`, with the handful of Qt string
operations they call.

Modelling conventions.

* A `QString` is the list of its characters. Every character the code tests
  for (space, em dash, the ASCII letters of the keyword lists, the white
  space of `trimmed`) lies in the Basic Multilingual Plane, where a UTF-16
  code unit and a code point coincide.
* A C++ `int` counter is an `Int`. A zone holds far fewer than `2 ^ 31`
  cards, so no counter wraps.
* A `CardItem *` that may be null is an `Option CardItem`; likewise the
  zone pointers and the player pointer.
* `QMap<QString, int>` is an association list with pairwise distinct keys.
  The order of the entries is not observable through the operations used
  here (`operator[]`, `clear`, summing the values).
-/

namespace Cockatrice

/-! ## Qt strings -/

/-- A `QString`, as the list of its characters. -/
abbrev QString := List Char

/-- The function `QChar::isSpace`: space, the controls U+0009 to U+000D, U+0085, U+00A0 and
the Unicode separators (categories Zs, Zl, Zp). -/
def isSpace (c : Char) : Bool :=
  let n := c.toNat
  n == 0x20 || (0x09 ≤ n && n ≤ 0x0d) || n == 0x85 || n == 0xa0 || n == 0x1680 ||
    (0x2000 ≤ n && n ≤ 0x200a) || n == 0x2028 || n == 0x2029 || n == 0x202f ||
    n == 0x205f || n == 0x3000

/-- Case folding as `Qt::CaseInsensitive` comparison applies it to each character,
restricted to what a comparison against ASCII letters can observe: the only
characters that fold to an ASCII letter are the ASCII letters themselves, the long s
(U+017F, folds to `s`) and the Kelvin sign (U+212A, folds to `k`). Every other
character is left alone, since its fold is never an ASCII letter. -/
def foldCase (c : Char) : Char :=
  if c.toNat = 0x17f then 's'
  else if c.toNat = 0x212a then 'k'
  else if 0x41 ≤ c.toNat ∧ c.toNat ≤ 0x5a then Char.ofNat (c.toNat + 0x20)
  else c

/-- The comparison `QString::compare(a, b, Qt::CaseInsensitive) == 0` on strings of equal size. -/
def equalsCI (a b : QString) : Bool :=
  a.map foldCase == b.map foldCase

/-- The call `QStringList::contains(str, Qt::CaseInsensitive)`. -/
def listContainsCI (list : List QString) (str : QString) : Bool :=
  list.any fun s => equalsCI s str

/-- Whether `needle` occurs in `s` as a contiguous run of characters. -/
def occursIn (needle : QString) : QString → Bool
  | [] => needle.isPrefixOf []
  | c :: cs => needle.isPrefixOf (c :: cs) || occursIn needle cs

/-- The call `QString::contains(needle, Qt::CaseInsensitive)`. -/
def containsCI (s needle : QString) : Bool :=
  occursIn (needle.map foldCase) (s.map foldCase)

/-- The function `QString::trimmed`: white space removed from both ends. -/
def trimmed (s : QString) : QString :=
  (s.dropWhile isSpace).rdropWhile isSpace

/-- The parts `QString::split(sep, Qt::KeepEmptyParts)` returns, for a non-empty separator:
the text between consecutive occurrences of `sep`, found left to right without
overlap. The counter is the number of characters of a matched separator still to
be skipped. -/
def splitAux (sep : QString) : Nat → QString → List QString
  | _, [] => [[]]
  | n + 1, _ :: cs => splitAux sep n cs
  | 0, c :: cs =>
    if sep.isPrefixOf (c :: cs) then [] :: splitAux sep (sep.length - 1) cs
    else
      match splitAux sep 0 cs with
      | [] => [[c]]
      | p :: ps => (c :: p) :: ps

/-- The call `s.split(sep)` (default `Qt::KeepEmptyParts`), `sep` non-empty. -/
def split (sep s : QString) : List QString :=
  splitAux sep 0 s

/-- The call `s.split(sep, Qt::SkipEmptyParts)`: the empty parts are not appended. -/
def splitSkipEmptyParts (sep s : QString) : List QString :=
  (split sep s).filter fun part => !part.isEmpty

/-! ## The classifier -/

/-- The separator `" — "`: space, em dash (U+2014), space. -/
def typeSeparator : QString := " — ".toList

/-- The list `mainTypeKeywords` of `getMainCardType`. -/
def mainTypeKeywords : List QString :=
  ["Creature".toList, "Land".toList, "Artifact".toList, "Enchantment".toList,
   "Planeswalker".toList, "Instant".toList, "Sorcery".toList, "Battle".toList,
   "Kindred".toList, "Tribal".toList, "Dungeon".toList, "Conspiracy".toList]

/-- The list `supertypes` of `getMainCardType`. -/
def supertypes : List QString :=
  ["Legendary".toList, "Basic".toList, "Snow".toList, "World".toList, "Ongoing".toList,
   "Elite".toList, "Host".toList]

/-- The method `GameInfoOverlay::getMainCardType`. -/
def getMainCardType (fullType : QString) : QString :=
  match split typeSeparator fullType with
  | [] => []
  | part0 :: _ =>
    let mainTypes := trimmed part0
    let types := splitSkipEmptyParts " ".toList mainTypes
    match types.find? fun type => listContainsCI mainTypeKeywords type with
    | some type => type
    | none =>
      match types.find? fun type => !listContainsCI supertypes type with
      | some type => type
      | none => mainTypes

/-- The first element `typeParts[0]` of the split type line: the main-types segment. -/
def mainTypesSegment (fullType : QString) : QString :=
  (split typeSeparator fullType).headD []

/-- The tokens of a string: its parts between single spaces, the empty ones dropped. -/
def tokens (s : QString) : List QString :=
  splitSkipEmptyParts " ".toList s

/-- A token that matches one of the twelve main-type keywords, case-insensitively. -/
def IsMainTypeKeyword (t : QString) : Prop :=
  ∃ k ∈ mainTypeKeywords, equalsCI k t = true

/-- A token that matches one of the seven supertypes, case-insensitively. -/
def IsSupertype (t : QString) : Prop :=
  ∃ k ∈ supertypes, equalsCI k t = true

/-! ## The map of graveyard types -/

/-- A `QMap<QString, int>`: its entries, with pairwise distinct keys. -/
abbrev QMap := List (QString × Int)

/-- The statement `map[key]++`: `operator[]` inserts the default value `0` for a key not
yet present and returns a reference to the stored value, which is then incremented. -/
def QMap.increment : QMap → QString → QMap
  | [], key => [(key, 0 + 1)]
  | (k, v) :: rest, key =>
    if k = key then (k, v + 1) :: rest else (k, v) :: QMap.increment rest key

/-- The function `QMap::value(key)`: the stored value, or the default `0` for an absent key. -/
def QMap.value : QMap → QString → Int
  | [], _ => 0
  | (k, v) :: rest, key => if k = key then v else QMap.value rest key

/-- The function `QMap::keys()`. -/
def QMap.keys (m : QMap) : List QString :=
  m.map Prod.fst

/-- The function `QMap::values()`. -/
def QMap.values (m : QMap) : List Int :=
  m.map Prod.snd

/-! ## The overlay -/

/-- What the statistics pass reads of a `CardItem`. -/
structure CardItem where
  /-- The test `card->getCard().isEmpty()`. -/
  isEmpty : Bool
  /-- The string `card->getCardInfo().getCardType()`. -/
  cardType : QString
deriving DecidableEq

/-- A `CardList`: a list of `CardItem *`, each of which may be null. -/
abbrev CardList := List (Option CardItem)

/-- What the overlay reads of a `Player`: `getTableZone()` and `getGraveZone()`, each of which
may be null, and the cards `getCards()` of the zone. -/
structure Player where
  tableZone : Option CardList
  graveZone : Option CardList
deriving DecidableEq

/-- The statistics fields of `GameInfoOverlay` and its `player` pointer, together with the
zones the player holds at the moment (`none` is the null pointer). -/
structure GameInfoOverlay where
  player : Option Player
  permanentCount : Int
  landCount : Int
  creatureCount : Int
  graveyardTypes : QMap
deriving DecidableEq

/-- The body of the loop over the table zone's cards in `calculateStatistics`. -/
def tableCardStep (self : GameInfoOverlay) (card : Option CardItem) : GameInfoOverlay :=
  match card with
  | none => self
  | some card =>
    if card.isEmpty then self
    else
      let cardType := card.cardType
      let self :=
        if containsCI cardType "Land".toList then
          { self with landCount := self.landCount + 1 }
        else self
      if containsCI cardType "Creature".toList then
        { self with creatureCount := self.creatureCount + 1 }
      else self

/-- The body of the loop over the graveyard's cards in `calculateStatistics`. -/
def graveCardStep (self : GameInfoOverlay) (card : Option CardItem) : GameInfoOverlay :=
  match card with
  | none => self
  | some card =>
    if card.isEmpty then self
    else
      let mainType := getMainCardType card.cardType
      if !mainType.isEmpty then
        { self with graveyardTypes := QMap.increment self.graveyardTypes mainType }
      else self

/-- The method `GameInfoOverlay::calculateStatistics`. -/
def calculateStatistics (self : GameInfoOverlay) : GameInfoOverlay :=
  match self.player with
  | none => self
  | some player =>
    let self :=
      { self with permanentCount := 0, landCount := 0, creatureCount := 0, graveyardTypes := [] }
    let self :=
      match player.tableZone with
      | none => self
      | some cards =>
        cards.foldl tableCardStep { self with permanentCount := (cards.length : Int) }
    match player.graveZone with
    | none => self
    | some cards => cards.foldl graveCardStep self

/-- The slot `GameInfoOverlay::updateStatistics`: the recomputation; the `update()` that
follows only schedules a repaint. -/
def updateStatistics (self : GameInfoOverlay) : GameInfoOverlay :=
  calculateStatistics self

/-- The constructor `GameInfoOverlay::GameInfoOverlay`: the counters start at `0`, the map
empty, and `updateStatistics()` is called once. -/
def GameInfoOverlay.construct (_player : Option Player) : GameInfoOverlay :=
  updateStatistics
    { player := _player, permanentCount := 0, landCount := 0, creatureCount := 0,
      graveyardTypes := [] }

/-- What can happen to a constructed overlay: the zones of its player change (the overlay's
own fields are untouched), or the slot `updateStatistics` is called, as the signal
`cardCountChanged` does. -/
inductive Event where
  | zonesChanged (now : Player)
  | cardCountChanged
deriving DecidableEq

/-- One event applied to the overlay. -/
def GameInfoOverlay.handle (self : GameInfoOverlay) : Event → GameInfoOverlay
  | .zonesChanged now => { self with player := self.player.map fun _ => now }
  | .cardCountChanged => updateStatistics self

/-- A sequence of events applied to the overlay, in order. -/
def GameInfoOverlay.run (self : GameInfoOverlay) (events : List Event) : GameInfoOverlay :=
  events.foldl GameInfoOverlay.handle self

/-! ## The specification's aggregation -/

/-- A present, non-empty card whose type line contains `needle` as a case-insensitive
substring. -/
def typeLineContains (needle : QString) (card : Option CardItem) : Bool :=
  match card with
  | none => false
  | some card => !card.isEmpty && containsCI card.cardType needle

/-- A present, non-empty card whose classification is exactly `label`. -/
def classifiesAs (label : QString) (card : Option CardItem) : Bool :=
  match card with
  | none => false
  | some card => !card.isEmpty && decide (getMainCardType card.cardType = label)

/-- A present, non-empty card whose classification is not the empty string. -/
def isClassified (card : Option CardItem) : Bool :=
  match card with
  | none => false
  | some card => !card.isEmpty && !(getMainCardType card.cardType).isEmpty

/-- The `Statistics` value of the specification. -/
structure Statistics where
  permanentCount : Int
  landCount : Int
  creatureCount : Int
  graveyardTypeCounts : QMap
deriving DecidableEq

/-- The statistics an overlay holds. -/
def GameInfoOverlay.statistics (self : GameInfoOverlay) : Statistics :=
  { permanentCount := self.permanentCount, landCount := self.landCount,
    creatureCount := self.creatureCount, graveyardTypeCounts := self.graveyardTypes }

/-- The labels of the graveyard's cards, in order: the non-empty classifications of its
present, non-empty cards. -/
def graveyardLabels (graveyard : CardList) : List QString :=
  (graveyard.filter isClassified).filterMap fun card => card.map fun c => getMainCardType c.cardType

/-- The function `aggregate` as the specification words it: `permanentCount` is the length
of the battlefield, `landCount` and `creatureCount` count its present, non-empty
cards whose type line contains `Land`, respectively `Creature`, and each label of the
graveyard increments its entry of the map, starting from the empty map. -/
def aggregate (battlefield graveyard : CardList) : Statistics :=
  { permanentCount := (battlefield.length : Int),
    landCount := ((battlefield.countP (typeLineContains "Land".toList) : Nat) : Int),
    creatureCount := ((battlefield.countP (typeLineContains "Creature".toList) : Nat) : Int),
    graveyardTypeCounts := (graveyardLabels graveyard).foldl QMap.increment [] }

/-- The all-zero statistics. -/
def Statistics.zero : Statistics :=
  { permanentCount := 0, landCount := 0, creatureCount := 0, graveyardTypeCounts := [] }

/-- A zone that is absent or holds no card. -/
def zoneAbsentOrEmpty (zone : Option CardList) : Bool :=
  match zone with
  | none => true
  | some cards => cards.isEmpty

/-- The collection a zone stands for: an absent zone counts as the empty collection. -/
def zoneCards (zone : Option CardList) : CardList :=
  zone.getD []

/-- The bounds on the stored statistics: the two sub-counts lie between `0` and
`permanentCount`, and every value stored in the map is at least `1`. -/
def GameInfoOverlay.BoundsHold (self : GameInfoOverlay) : Prop :=
  0 ≤ self.landCount ∧ self.landCount ≤ self.permanentCount ∧
  0 ≤ self.creatureCount ∧ self.creatureCount ≤ self.permanentCount ∧
  ∀ entry ∈ self.graveyardTypes, 1 ≤ entry.2

/-- The zones of a player are each absent or empty. -/
def Player.hasNoCards (player : Player) : Prop :=
  zoneAbsentOrEmpty player.tableZone = true ∧ zoneAbsentOrEmpty player.graveZone = true

/-! ## Example zones -/

/-- The battlefield of the specification's example: `Basic Land`, `Creature` and an empty
card. -/
def exampleBattlefield : CardList :=
  [some ⟨false, "Basic Land".toList⟩, some ⟨false, "Creature".toList⟩,
   some ⟨true, "Land Creature".toList⟩]

/-- A graveyard with two cards classifying to `Instant` and one to `Sorcery`, next to a
null card, an empty card and a card with a blank type line. -/
def exampleGraveyard : CardList :=
  [some ⟨false, "Instant".toList⟩, none, some ⟨false, "Sorcery".toList⟩,
   some ⟨true, "Creature".toList⟩, some ⟨false, " ".toList⟩,
   some ⟨false, "Legendary Instant — Arcane".toList⟩]

/-- An overlay with stale statistics whose player holds the example zones. -/
def exampleOverlay : GameInfoOverlay :=
  { player := some { tableZone := some exampleBattlefield, graveZone := some exampleGraveyard },
    permanentCount := 9, landCount := 9, creatureCount := 9,
    graveyardTypes := [("Land".toList, 4)] }

/-! ## Facts about the string operations -/

theorem splitAux_ne_nil (sep : QString) (n : Nat) (s : QString) : splitAux sep n s ≠ [] := by
  induction s generalizing n with
  | nil => simp [splitAux]
  | cons c cs ih =>
    cases n with
    | zero =>
      unfold splitAux
      split
      · simp
      · split <;> simp
    | succ n => simpa [splitAux] using ih n

theorem getMainCardType_eq (fullType : QString) :
    getMainCardType fullType =
      match (tokens (trimmed (mainTypesSegment fullType))).find?
          fun type => listContainsCI mainTypeKeywords type with
      | some type => type
      | none =>
        match (tokens (trimmed (mainTypesSegment fullType))).find?
            fun type => !listContainsCI supertypes type with
        | some type => type
        | none => trimmed (mainTypesSegment fullType) := by
  unfold getMainCardType mainTypesSegment tokens
  cases h : split typeSeparator fullType with
  | nil => exact absurd h (splitAux_ne_nil _ _ _)
  | cons part0 rest => rfl

theorem listContainsCI_iff (list : List QString) (t : QString) :
    listContainsCI list t = true ↔ ∃ k ∈ list, equalsCI k t = true := by
  simp [listContainsCI, List.any_eq_true]

theorem find?_first {α : Type} (p : α → Bool) (pre post : List α) (t : α)
    (hpre : ∀ u ∈ pre, p u = false) (ht : p t = true) :
    (pre ++ t :: post).find? p = some t := by
  induction pre with
  | nil => simp [List.find?, ht]
  | cons u us ih =>
    have hu : p u = false := hpre u (List.mem_cons_self _ _)
    have hus : ∀ v ∈ us, p v = false := fun v hv => hpre v (List.mem_cons_of_mem _ hv)
    simp [List.find?, hu, ih hus]

theorem exists_first {α : Type} (p : α → Bool) (l : List α) (h : ∃ t ∈ l, p t = true) :
    ∃ pre t post, l = pre ++ t :: post ∧ (∀ u ∈ pre, p u = false) ∧ p t = true := by
  induction l with
  | nil =>
    obtain ⟨t, ht, -⟩ := h
    simp at ht
  | cons x xs ih =>
    cases hx : p x with
    | true => exact ⟨[], x, xs, rfl, by simp, hx⟩
    | false =>
      obtain ⟨t, ht, hpt⟩ := h
      have hmem : t ∈ xs := by
        rcases List.mem_cons.mp ht with h1 | h1
        · rw [h1, hx] at hpt
          exact Bool.noConfusion hpt
        · exact h1
      obtain ⟨pre, t1, post, hl, hpre, ht1⟩ := ih ⟨t, hmem, hpt⟩
      refine ⟨x :: pre, t1, post, by rw [hl]; rfl, ?_, ht1⟩
      intro u hu
      rcases List.mem_cons.mp hu with h1 | h1
      · rw [h1]; exact hx
      · exact hpre u h1

theorem not_keyword_iff (t : QString) :
    ¬ IsMainTypeKeyword t ↔ listContainsCI mainTypeKeywords t = false := by
  rw [IsMainTypeKeyword, ← listContainsCI_iff]; simp

theorem not_supertype_iff (t : QString) :
    ¬ IsSupertype t ↔ listContainsCI supertypes t = false := by
  rw [IsSupertype, ← listContainsCI_iff]; simp

theorem supertype_not_keyword (t : QString) (h : IsSupertype t) : ¬ IsMainTypeKeyword t := by
  rintro ⟨k, hk, hkt⟩
  obtain ⟨s, hs, hst⟩ := h
  have hfold : s.map foldCase = k.map foldCase := by
    simp only [equalsCI, beq_iff_eq] at hkt hst
    rw [hst, hkt]
  have hall : ∀ a ∈ supertypes, ∀ b ∈ mainTypeKeywords, a.map foldCase ≠ b.map foldCase := by
    decide
  exact hall s hs k hk hfold

/-! ### The main-types segment -/

theorem mainTypesSegment_nil : mainTypesSegment [] = [] := rfl

theorem mainTypesSegment_separator (b : QString) : mainTypesSegment (typeSeparator ++ b) = [] := by
  simp [mainTypesSegment, split, typeSeparator, splitAux, List.isPrefixOf]

theorem mainTypesSegment_cons (c : Char) (cs : QString)
    (h : typeSeparator.isPrefixOf (c :: cs) = false) :
    mainTypesSegment (c :: cs) = c :: mainTypesSegment cs := by
  unfold mainTypesSegment split
  rw [splitAux, if_neg (by simp [h])]
  cases hs : splitAux typeSeparator 0 cs with
  | nil => exact absurd hs (splitAux_ne_nil _ _ _)
  | cons p ps => rfl

theorem mainTypesSegment_append (a rest : QString) (ha : '—' ∉ a)
    (hrest : rest.head? ≠ some '—') :
    mainTypesSegment (a ++ rest) = a ++ mainTypesSegment rest := by
  induction a with
  | nil => rfl
  | cons c a ih =>
    have hc : '—' ∉ a := fun h => ha (List.mem_cons_of_mem _ h)
    have hpre : typeSeparator.isPrefixOf (c :: (a ++ rest)) = false := by
      cases a with
      | nil =>
        cases rest with
        | nil => simp [typeSeparator, List.isPrefixOf]
        | cons r rs =>
          have hr : ¬ ('—' = r) := fun h => hrest (by simp [← h])
          simp [typeSeparator, List.isPrefixOf, hr]
      | cons d ds =>
        have hd : ¬ ('—' = d) := fun h => ha (by simp [← h])
        simp [typeSeparator, List.isPrefixOf, hd]
    rw [List.cons_append, mainTypesSegment_cons _ _ hpre, ih hc, List.cons_append]

theorem mainTypesSegment_of_no_dash (a : QString) (ha : '—' ∉ a) : mainTypesSegment a = a := by
  have h := mainTypesSegment_append a [] ha (by simp)
  simpa [mainTypesSegment_nil] using h

theorem mainTypesSegment_before_separator (a b : QString) (ha : '—' ∉ a) :
    mainTypesSegment (a ++ typeSeparator ++ b) = a := by
  rw [List.append_assoc, mainTypesSegment_append a _ ha (by simp [typeSeparator]),
    mainTypesSegment_separator, List.append_nil]

/-! ### Tokens -/

theorem splitAux_space_cons_space (s : QString) :
    splitAux " ".toList 0 (' ' :: s) = [] :: splitAux " ".toList 0 s := by
  rw [splitAux]; simp [List.isPrefixOf]

theorem splitAux_space_cons_other (c : Char) (s : QString) (hc : c ≠ ' ') :
    splitAux " ".toList 0 (c :: s) =
      (c :: (splitAux " ".toList 0 s).headD []) :: (splitAux " ".toList 0 s).tail := by
  have hpre : List.isPrefixOf " ".toList (c :: s) = false := by
    have : ¬ (' ' = c) := fun h => hc h.symm
    simp [List.isPrefixOf, this]
  rw [splitAux, if_neg (by rw [hpre]; simp)]
  cases hs : splitAux " ".toList 0 s with
  | nil => exact absurd hs (splitAux_ne_nil _ _ _)
  | cons p ps => rfl

theorem tokens_cons_space (s : QString) : tokens (' ' :: s) = tokens s := by
  unfold tokens splitSkipEmptyParts split
  rw [splitAux_space_cons_space]
  rfl

theorem splitAux_space_concat_space (s : QString) :
    splitAux " ".toList 0 (s ++ [' ']) = splitAux " ".toList 0 s ++ [[]] := by
  induction s with
  | nil => rfl
  | cons c cs ih =>
    by_cases hc : c = ' '
    · subst hc
      rw [List.cons_append, splitAux_space_cons_space, splitAux_space_cons_space, ih,
        List.cons_append]
    · rw [List.cons_append, splitAux_space_cons_other c _ hc, splitAux_space_cons_other c _ hc, ih]
      cases hs : splitAux " ".toList 0 cs with
      | nil => exact absurd hs (splitAux_ne_nil _ _ _)
      | cons p ps => rfl

theorem tokens_concat_space (s : QString) : tokens (s ++ [' ']) = tokens s := by
  unfold tokens splitSkipEmptyParts split
  rw [splitAux_space_concat_space]
  simp

theorem mem_part_of_mem (s : QString) (c : Char) (hc : c ∈ s) (hsp : c ≠ ' ') :
    ∃ t ∈ splitAux " ".toList 0 s, c ∈ t := by
  induction s with
  | nil => simp at hc
  | cons d ds ih =>
    by_cases hd : d = ' '
    · subst hd
      have hmem : c ∈ ds := by
        rcases List.mem_cons.mp hc with h | h
        · exact absurd h hsp
        · exact h
      obtain ⟨t, ht, hct⟩ := ih hmem
      exact ⟨t, by rw [splitAux_space_cons_space]; exact List.mem_cons_of_mem _ ht, hct⟩
    · rw [splitAux_space_cons_other d _ hd]
      rcases List.mem_cons.mp hc with h | h
      · exact ⟨_, List.mem_cons_self _ _, by rw [h]; exact List.mem_cons_self _ _⟩
      · obtain ⟨t, ht, hct⟩ := ih h
        cases hs : splitAux " ".toList 0 ds with
        | nil => exact absurd hs (splitAux_ne_nil _ _ _)
        | cons p ps =>
          rw [hs] at ht
          rcases List.mem_cons.mp ht with h1 | h1
          · exact ⟨d :: p, by simp, by rw [← h1]; exact List.mem_cons_of_mem _ hct⟩
          · exact ⟨t, by simp [h1], hct⟩

theorem mem_token_of_mem (s : QString) (c : Char) (hc : c ∈ s) (hsp : c ≠ ' ') :
    ∃ t ∈ tokens s, c ∈ t := by
  obtain ⟨t, ht, hct⟩ := mem_part_of_mem s c hc hsp
  refine ⟨t, ?_, hct⟩
  have hne : t ≠ [] := fun h => by rw [h] at hct; simp at hct
  unfold tokens splitSkipEmptyParts split
  exact List.mem_filter.mpr ⟨ht, by simp [hne]⟩

theorem tokens_dropWhile (s : QString) (h : ∀ c ∈ s, isSpace c = true → c = ' ') :
    tokens (s.dropWhile isSpace) = tokens s := by
  induction s with
  | nil => rfl
  | cons c cs ih =>
    have hcs : ∀ d ∈ cs, isSpace d = true → d = ' ' := fun d hd =>
      h d (List.mem_cons_of_mem _ hd)
    by_cases hc : isSpace c = true
    · have hsp : c = ' ' := h c (List.mem_cons_self _ _) hc
      rw [List.dropWhile_cons_of_pos hc, ih hcs, hsp, tokens_cons_space]
    · rw [List.dropWhile_cons_of_neg hc]

theorem tokens_rdropWhile (s : QString) (h : ∀ c ∈ s, isSpace c = true → c = ' ') :
    tokens (s.rdropWhile isSpace) = tokens s := by
  induction s using List.reverseRecOn with
  | nil => rfl
  | append_singleton cs c ih =>
    have hcs : ∀ d ∈ cs, isSpace d = true → d = ' ' := fun d hd =>
      h d (List.mem_append_left _ hd)
    by_cases hc : isSpace c = true
    · have hsp : c = ' ' := h c (by simp) hc
      rw [List.rdropWhile_concat_pos _ _ _ hc, ih hcs, hsp, tokens_concat_space]
    · rw [List.rdropWhile_concat_neg _ _ _ hc]

theorem tokens_trimmed (s : QString) (h : ∀ c ∈ s, isSpace c = true → c = ' ') :
    tokens (trimmed s) = tokens s := by
  unfold trimmed
  rw [tokens_rdropWhile, tokens_dropWhile s h]
  intro c hc
  exact h c ((List.dropWhile_sublist _).subset hc)

theorem not_isSpace_of_supertype (t : QString) (ht : IsSupertype t) (c : Char) (hc : c ∈ t)
    (hsp : isSpace c = true) : c = ' ' := by
  exfalso
  obtain ⟨k, hk, hkt⟩ := ht
  simp only [equalsCI, beq_iff_eq] at hkt
  have hfix : foldCase c = c := by
    have hn : c.toNat = 0x20 ∨ (0x09 ≤ c.toNat ∧ c.toNat ≤ 0x0d) ∨ c.toNat = 0x85 ∨
        c.toNat = 0xa0 ∨ c.toNat = 0x1680 ∨ (0x2000 ≤ c.toNat ∧ c.toNat ≤ 0x200a) ∨
        c.toNat = 0x2028 ∨ c.toNat = 0x2029 ∨ c.toNat = 0x202f ∨ c.toNat = 0x205f ∨
        c.toNat = 0x3000 := by
      simpa [isSpace, or_assoc] using hsp
    have h1 : ¬ c.toNat = 0x17f := by omega
    have h2 : ¬ c.toNat = 0x212a := by omega
    have h3 : ¬ (0x41 ≤ c.toNat ∧ c.toNat ≤ 0x5a) := by omega
    simp [foldCase, h1, h2, h3]
  have hmem : c ∈ k.map foldCase := by
    rw [hkt]
    exact hfix ▸ List.mem_map_of_mem foldCase hc
  have hall : ∀ a ∈ supertypes, ∀ x ∈ a.map foldCase, isSpace x = false := by decide
  have := hall k hk c hmem
  rw [hsp] at this
  exact Bool.noConfusion this

theorem tokens_trimmed_of_supertypes (s : QString) (h : ∀ t ∈ tokens s, IsSupertype t) :
    tokens (trimmed s) = tokens s := by
  apply tokens_trimmed
  intro c hc hsp
  by_contra hne
  obtain ⟨t, ht, hct⟩ := mem_token_of_mem s c hc hne
  exact hne (not_isSpace_of_supertype t (h t ht) c hct hsp)

/-! ### What the segment and the substring test are -/

theorem isPrefixOf_of_occursIn_false (needle front back : QString)
    (h : occursIn needle (front ++ back) = false) : needle.isPrefixOf back = false := by
  induction front with
  | nil =>
    cases back with
    | nil => simpa [occursIn] using h
    | cons c cs =>
      simp only [List.nil_append, occursIn, Bool.or_eq_false_iff] at h
      exact h.1
  | cons c cs ih =>
    simp only [List.cons_append, occursIn, Bool.or_eq_false_iff] at h
    exact ih h.2

theorem mainTypesSegment_append_of_no_match (a rest : QString)
    (h : ∀ front back, a = front ++ back → back ≠ [] →
      typeSeparator.isPrefixOf (back ++ rest) = false) :
    mainTypesSegment (a ++ rest) = a ++ mainTypesSegment rest := by
  induction a with
  | nil => rfl
  | cons c a ih =>
    have hhead : typeSeparator.isPrefixOf (c :: (a ++ rest)) = false :=
      h [] (c :: a) rfl (by simp)
    have htail : ∀ front back, a = front ++ back → back ≠ [] →
        typeSeparator.isPrefixOf (back ++ rest) = false := fun front back hfb hne =>
      h (c :: front) back (by rw [hfb]; rfl) hne
    rw [List.cons_append, mainTypesSegment_cons _ _ hhead, ih htail, List.cons_append]

/-- The segment is the whole line when the separator does not occur in it. -/
theorem mainTypesSegment_whole_line (fullType : QString)
    (h : occursIn typeSeparator fullType = false) : mainTypesSegment fullType = fullType := by
  have := mainTypesSegment_append_of_no_match fullType [] (fun front back hfb _ => by
    rw [List.append_nil]
    exact isPrefixOf_of_occursIn_false _ front back (hfb ▸ h))
  simpa [mainTypesSegment_nil] using this

/-- The segment is the text before the first occurrence of the separator: no occurrence
starts before the one that follows `a`. -/
theorem mainTypesSegment_before_first (a b : QString)
    (h : occursIn typeSeparator (a ++ " —".toList) = false) :
    mainTypesSegment (a ++ typeSeparator ++ b) = a := by
  rw [List.append_assoc, mainTypesSegment_append_of_no_match a (typeSeparator ++ b),
    mainTypesSegment_separator, List.append_nil]
  intro front back hfb hne
  have hshort : typeSeparator.isPrefixOf (back ++ " —".toList) = false := by
    apply isPrefixOf_of_occursIn_false _ front
    rw [← List.append_assoc, ← hfb]
    exact h
  match back, hne, hshort with
  | [x], _, _ => simp [typeSeparator, List.isPrefixOf]
  | [x, y], _, hs => simpa [typeSeparator, List.isPrefixOf] using hs
  | x :: y :: z :: r, _, hs => simpa [typeSeparator, List.isPrefixOf] using hs

theorem occursIn_iff_contiguous (needle s : QString) : occursIn needle s = true ↔ needle <:+: s := by
  induction s with
  | nil =>
    cases needle with
    | nil => simp [occursIn, List.isPrefixOf]
    | cons c cs => simp [occursIn, List.isPrefixOf]
  | cons c cs ih =>
    rw [occursIn, Bool.or_eq_true, ih, List.infix_cons_iff, List.isPrefixOf_iff_prefix]

/-- The substring test holds exactly when some contiguous run of the string equals the
needle up to case. -/
theorem containsCI_iff (s needle : QString) :
    containsCI s needle = true ↔
      ∃ front run back, s = front ++ run ++ back ∧ equalsCI run needle = true := by
  unfold containsCI equalsCI
  rw [occursIn_iff_contiguous]
  constructor
  · rintro ⟨p, q, hpq⟩
    obtain ⟨l1, back, hs, hl1, -⟩ := List.map_eq_append_iff.mp hpq.symm
    obtain ⟨front, run, hl, -, hrun⟩ := List.map_eq_append_iff.mp hl1
    exact ⟨front, run, back, by rw [hs, hl], by simpa using hrun⟩
  · rintro ⟨front, run, back, hs, hrun⟩
    refine ⟨front.map foldCase, back.map foldCase, ?_⟩
    rw [hs, List.map_append, List.map_append]
    simp only [beq_iff_eq] at hrun
    rw [hrun]

/-- One card may count toward both sub-counts, one of them, or neither. -/
theorem typeLineContains_independent :
    (typeLineContains "land".toList (some ⟨false, "Land Creature".toList⟩) = true ∧
      typeLineContains "creature".toList (some ⟨false, "Land Creature".toList⟩) = true) ∧
    (typeLineContains "land".toList (some ⟨false, "Basic Land".toList⟩) = true ∧
      typeLineContains "creature".toList (some ⟨false, "Basic Land".toList⟩) = false) ∧
    (typeLineContains "land".toList (some ⟨false, "Instant".toList⟩) = false ∧
      typeLineContains "creature".toList (some ⟨false, "Instant".toList⟩) = false) := by
  decide

/-! ## The classifier's contract -/

/-- C1, as stated, fails: the tokens are taken from the trimmed segment. The main-types
segment of the type line tab, `Land Creature` is the whole line; split on spaces it
has the tokens tab-`Land` and `Creature`, of which only `Creature` matches a keyword;
yet `getMainCardType` returns `Land`. So the statement over the tokens of the
untrimmed segment does not hold for every type line. -/
theorem getMainCardType_untrimmed_keyword_counterexample :
    mainTypesSegment "\tLand Creature".toList = "\tLand Creature".toList ∧
    tokens (mainTypesSegment "\tLand Creature".toList) =
      ["\tLand".toList, "Creature".toList] ∧
    ¬ IsMainTypeKeyword "\tLand".toList ∧
    IsMainTypeKeyword "Creature".toList ∧
    getMainCardType "\tLand Creature".toList = "Land".toList ∧
    getMainCardType "\tLand Creature".toList ≠ "Creature".toList ∧
    ¬ ∀ fullType : QString,
      (∃ t ∈ tokens (mainTypesSegment fullType), IsMainTypeKeyword t) →
      ∃ pre post,
        tokens (mainTypesSegment fullType) = pre ++ getMainCardType fullType :: post ∧
        (∀ u ∈ pre, ¬ IsMainTypeKeyword u) ∧
        IsMainTypeKeyword (getMainCardType fullType) := by
  have hland : ¬ IsMainTypeKeyword "\tLand".toList := (not_keyword_iff _).mpr (by decide)
  have hcreature : IsMainTypeKeyword "Creature".toList :=
    (listContainsCI_iff _ _).mp (by decide)
  refine ⟨by decide, by decide, hland, hcreature, by decide, by decide, ?_⟩
  intro hall
  obtain ⟨pre, post, htokens, -, -⟩ :=
    hall "\tLand Creature".toList ⟨"Creature".toList, by decide, hcreature⟩
  have hmem : getMainCardType "\tLand Creature".toList ∈
      tokens (mainTypesSegment "\tLand Creature".toList) := by
    rw [htokens]; simp
  exact absurd hmem (by decide)

/-- The keyword case, given the leftmost keyword token `t` of the trimmed segment. -/
theorem getMainCardType_of_first_keyword (fullType : QString) (pre post : List QString)
    (t : QString)
    (htokens : tokens (trimmed (mainTypesSegment fullType)) = pre ++ t :: post)
    (hpre : ∀ u ∈ pre, ¬ IsMainTypeKeyword u) (ht : IsMainTypeKeyword t) :
    getMainCardType fullType = t := by
  rw [getMainCardType_eq, htokens,
    find?_first _ pre post t (fun u hu => (not_keyword_iff u).mp (hpre u hu))
      ((listContainsCI_iff _ _).mpr ht)]

/-- C1 (amended): when the trimmed main-types segment, split on spaces with the empty
tokens dropped, has a token matching one of the twelve keywords case-insensitively,
`getMainCardType` returns the leftmost such token, spelled as in the input: the result
is a token of the list that matches a keyword, and no token before it does. -/
theorem getMainCardType_first_keyword (fullType : QString)
    (h : ∃ t ∈ tokens (trimmed (mainTypesSegment fullType)), IsMainTypeKeyword t) :
    ∃ pre post,
      tokens (trimmed (mainTypesSegment fullType)) = pre ++ getMainCardType fullType :: post ∧
      (∀ u ∈ pre, ¬ IsMainTypeKeyword u) ∧ IsMainTypeKeyword (getMainCardType fullType) := by
  obtain ⟨pre, t, post, htokens, hpre, ht⟩ :=
    exists_first (fun type => listContainsCI mainTypeKeywords type) _
      (by
        obtain ⟨t, hmem, hkw⟩ := h
        exact ⟨t, hmem, (listContainsCI_iff _ _).mpr hkw⟩)
  have hpre2 : ∀ u ∈ pre, ¬ IsMainTypeKeyword u := fun u hu =>
    (not_keyword_iff u).mpr (hpre u hu)
  have ht2 : IsMainTypeKeyword t := (listContainsCI_iff _ _).mp ht
  rw [getMainCardType_of_first_keyword fullType pre post t htokens hpre2 ht2]
  exact ⟨pre, post, htokens, hpre2, ht2⟩

/-- C1 at the claim's examples: `Legendary Creature — Elf Warrior` has the keyword token
`Creature`, so the result is its leftmost keyword token, and that is `Creature`;
`Artifact Creature` gives `Artifact`; a keyword in another casing comes back as
spelled. -/
theorem getMainCardType_first_keyword_witness :
    (∃ pre post,
      tokens (trimmed (mainTypesSegment "Legendary Creature — Elf Warrior".toList)) =
        pre ++ getMainCardType "Legendary Creature — Elf Warrior".toList :: post ∧
      (∀ u ∈ pre, ¬ IsMainTypeKeyword u) ∧
      IsMainTypeKeyword (getMainCardType "Legendary Creature — Elf Warrior".toList)) ∧
    getMainCardType "Legendary Creature — Elf Warrior".toList = "Creature".toList ∧
    getMainCardType "Artifact Creature".toList = "Artifact".toList ∧
    getMainCardType "Basic sNOW lAND".toList = "lAND".toList :=
  ⟨getMainCardType_first_keyword "Legendary Creature — Elf Warrior".toList
      ⟨"Creature".toList, by decide, (listContainsCI_iff _ _).mp (by decide)⟩,
    by decide, by decide, by decide⟩

/-- The supertype-only case on the tokens the code scans, those of the trimmed segment. -/
theorem getMainCardType_of_trimmed_supertypes (fullType : QString)
    (hall : ∀ t ∈ tokens (trimmed (mainTypesSegment fullType)), IsSupertype t) :
    getMainCardType fullType = trimmed (mainTypesSegment fullType) := by
  rw [getMainCardType_eq]
  have h1 : (tokens (trimmed (mainTypesSegment fullType))).find?
      (fun type => listContainsCI mainTypeKeywords type) = none := by
    rw [List.find?_eq_none]
    intro u hu
    simpa using (not_keyword_iff u).mp (supertype_not_keyword u (hall u hu))
  have h2 : (tokens (trimmed (mainTypesSegment fullType))).find?
      (fun type => !listContainsCI supertypes type) = none := by
    rw [List.find?_eq_none]
    intro u hu
    simpa using (listContainsCI_iff _ _).mpr (hall u hu)
  rw [h1, h2]

/-- C2: when every space-separated token of the main-types segment matches a
supertype case-insensitively, `getMainCardType` returns the whole trimmed segment
verbatim (also when that segment is empty). -/
theorem getMainCardType_all_supertypes (fullType : QString)
    (hall : ∀ t ∈ tokens (mainTypesSegment fullType), IsSupertype t) :
    getMainCardType fullType = trimmed (mainTypesSegment fullType) := by
  apply getMainCardType_of_trimmed_supertypes
  rw [tokens_trimmed_of_supertypes _ hall]
  exact hall

/-- C2 at the claim's example, `Legendary Snow`, and at a line with other casing, repeated
inner spaces and subtypes. -/
theorem getMainCardType_all_supertypes_witness :
    getMainCardType "Legendary Snow".toList = "Legendary Snow".toList ∧
    getMainCardType " legendary  SNOW  — Elf".toList = "legendary  SNOW".toList :=
  ⟨getMainCardType_all_supertypes "Legendary Snow".toList
      (by intro t ht; exact (listContainsCI_iff _ _).mp (by revert t; decide)),
    getMainCardType_all_supertypes " legendary  SNOW  — Elf".toList
      (by intro t ht; exact (listContainsCI_iff _ _).mp (by revert t; decide))⟩

/-- C3: a type line that is empty or all white space, and more generally a type line
whose segment before the first separator is empty after trimming, classifies as the
empty string. -/
theorem getMainCardType_blank (fullType : QString)
    (h : (∀ c ∈ fullType, isSpace c = true) ∨ trimmed (mainTypesSegment fullType) = []) :
    getMainCardType fullType = [] := by
  have htrim : trimmed (mainTypesSegment fullType) = [] := by
    rcases h with h | h
    · have hdash : '—' ∉ fullType := fun hm => by
        have := h _ hm
        exact absurd this (by decide)
      rw [mainTypesSegment_of_no_dash _ hdash]
      unfold trimmed
      rw [List.dropWhile_eq_nil_iff.mpr h]
      rfl
    · exact h
  rw [getMainCardType_eq, htrim]
  rfl

/-- C3 at the empty line, a line of a space, a tab and a no-break space, and a line that
starts with the separator. -/
theorem getMainCardType_blank_witness :
    getMainCardType [] = [] ∧ getMainCardType " \t\u00a0".toList = [] ∧
    getMainCardType "  — Elf Warrior".toList = [] :=
  ⟨getMainCardType_blank [] (Or.inl (by decide)),
    getMainCardType_blank " \t\u00a0".toList (Or.inl (by decide)),
    getMainCardType_blank "  — Elf Warrior".toList (Or.inr (by decide))⟩

/-- C4, as stated, fails: the tokens are taken from the trimmed segment. The main-types
segment of the type line tab, `Legendary Summon` has the tokens tab-`Legendary` and
`Summon`; none matches a keyword and the leftmost that is not a supertype is
tab-`Legendary`; yet `getMainCardType` returns `Summon`. So the statement over the
tokens of the untrimmed segment does not hold for every type line. -/
theorem getMainCardType_untrimmed_fallback_counterexample :
    tokens (mainTypesSegment "\tLegendary Summon".toList) =
      ["\tLegendary".toList, "Summon".toList] ∧
    (∀ u ∈ tokens (mainTypesSegment "\tLegendary Summon".toList), ¬ IsMainTypeKeyword u) ∧
    ¬ IsSupertype "\tLegendary".toList ∧
    getMainCardType "\tLegendary Summon".toList = "Summon".toList ∧
    getMainCardType "\tLegendary Summon".toList ≠ "\tLegendary".toList ∧
    ¬ ∀ fullType : QString,
      (∀ u ∈ tokens (mainTypesSegment fullType), ¬ IsMainTypeKeyword u) →
      (∃ t ∈ tokens (mainTypesSegment fullType), ¬ IsSupertype t) →
      ∃ pre post,
        tokens (mainTypesSegment fullType) = pre ++ getMainCardType fullType :: post ∧
        (∀ u ∈ pre, IsSupertype u) ∧ ¬ IsSupertype (getMainCardType fullType) := by
  have hnone : ∀ u ∈ tokens (mainTypesSegment "\tLegendary Summon".toList),
      ¬ IsMainTypeKeyword u := by
    intro u hu
    exact (not_keyword_iff u).mpr (by revert u; decide)
  have hfirst : ¬ IsSupertype "\tLegendary".toList := (not_supertype_iff _).mpr (by decide)
  refine ⟨by decide, hnone, hfirst, by decide, by decide, ?_⟩
  intro hall
  obtain ⟨pre, post, htokens, hpre, -⟩ :=
    hall "\tLegendary Summon".toList hnone ⟨"\tLegendary".toList, by decide, hfirst⟩
  have hsplit : ["\tLegendary".toList, "Summon".toList] = pre ++ "Summon".toList :: post := by
    have hres : getMainCardType "\tLegendary Summon".toList = "Summon".toList := by decide
    have htok : tokens (mainTypesSegment "\tLegendary Summon".toList) =
        ["\tLegendary".toList, "Summon".toList] := by decide
    rw [← htok, htokens, hres]
  have hmem : "\tLegendary".toList ∈ pre := by
    match pre, hsplit with
    | [], hs => exact absurd (List.cons.inj hs).1 (by decide)
    | x :: xs, hs =>
      have hx : "\tLegendary".toList = x := (List.cons.inj hs).1
      rw [hx]; exact List.mem_cons_self _ _
  exact hfirst (hpre _ hmem)

/-- The fallback case, given the leftmost non-supertype token `t` of the trimmed segment. -/
theorem getMainCardType_of_first_non_supertype (fullType : QString) (pre post : List QString)
    (t : QString)
    (htokens : tokens (trimmed (mainTypesSegment fullType)) = pre ++ t :: post)
    (hnone : ∀ u ∈ tokens (trimmed (mainTypesSegment fullType)), ¬ IsMainTypeKeyword u)
    (hpre : ∀ u ∈ pre, IsSupertype u) (ht : ¬ IsSupertype t) :
    getMainCardType fullType = t := by
  have h1 : (tokens (trimmed (mainTypesSegment fullType))).find?
      (fun type => listContainsCI mainTypeKeywords type) = none := by
    rw [List.find?_eq_none]
    intro u hu
    simpa using (not_keyword_iff u).mp (hnone u hu)
  rw [getMainCardType_eq, h1, htokens]
  rw [find?_first (fun type => !listContainsCI supertypes type) pre post t
    (fun u hu => by simpa using (listContainsCI_iff _ _).mpr (hpre u hu))
    (by simpa using (not_supertype_iff t).mp ht)]

/-- C4 (amended): when no token of the trimmed main-types segment matches a keyword and
some token is not a supertype, `getMainCardType` returns the leftmost token that is not
(case-insensitively) a supertype, spelled as in the input: the result is a token of the
list that is not a supertype, and every token before it is one. -/
theorem getMainCardType_first_non_supertype (fullType : QString)
    (hnone : ∀ u ∈ tokens (trimmed (mainTypesSegment fullType)), ¬ IsMainTypeKeyword u)
    (h : ∃ t ∈ tokens (trimmed (mainTypesSegment fullType)), ¬ IsSupertype t) :
    ∃ pre post,
      tokens (trimmed (mainTypesSegment fullType)) = pre ++ getMainCardType fullType :: post ∧
      (∀ u ∈ pre, IsSupertype u) ∧ ¬ IsSupertype (getMainCardType fullType) := by
  obtain ⟨pre, t, post, htokens, hpre, ht⟩ :=
    exists_first (fun type => !listContainsCI supertypes type) _
      (by
        obtain ⟨t, hmem, hsup⟩ := h
        exact ⟨t, hmem, by simpa using (not_supertype_iff t).mp hsup⟩)
  have hpre2 : ∀ u ∈ pre, IsSupertype u := fun u hu =>
    (listContainsCI_iff _ _).mp (by simpa using hpre u hu)
  have ht2 : ¬ IsSupertype t := (not_supertype_iff t).mpr (by simpa using ht)
  rw [getMainCardType_of_first_non_supertype fullType pre post t htokens hnone hpre2 ht2]
  exact ⟨pre, post, htokens, hpre2, ht2⟩

/-- C4 at the claim's example: `Legendary Summon — Wolf` has no keyword token and the
token `Summon` is not a supertype, so the result is its leftmost non-supertype token,
and that is `Summon`. -/
theorem getMainCardType_first_non_supertype_witness :
    (∃ pre post,
      tokens (trimmed (mainTypesSegment "Legendary Summon — Wolf".toList)) =
        pre ++ getMainCardType "Legendary Summon — Wolf".toList :: post ∧
      (∀ u ∈ pre, IsSupertype u) ∧
      ¬ IsSupertype (getMainCardType "Legendary Summon — Wolf".toList)) ∧
    getMainCardType "Legendary Summon — Wolf".toList = "Summon".toList :=
  ⟨getMainCardType_first_non_supertype "Legendary Summon — Wolf".toList
      (by intro u hu; exact (not_keyword_iff u).mpr (by revert u; decide))
      ⟨"Summon".toList, by decide, (not_supertype_iff _).mpr (by decide)⟩,
    by decide⟩

/-- C10: subtypes never influence the classification. For every `a` without an em dash
and every `b`, the line `a`, separator, `b` classifies as `a` does. -/
theorem getMainCardType_ignores_subtypes (a b : QString) (ha : '—' ∉ a) :
    getMainCardType (a ++ typeSeparator ++ b) = getMainCardType a := by
  rw [getMainCardType_eq, getMainCardType_eq, mainTypesSegment_before_separator a b ha,
    mainTypesSegment_of_no_dash a ha]

/-- C10 at the claim's example: `Summon — Creature` classifies as `Summon`, the keyword
after the separator being ignored. -/
theorem getMainCardType_ignores_subtypes_witness :
    "Summon".toList ++ typeSeparator ++ "Creature".toList = "Summon — Creature".toList ∧
    getMainCardType ("Summon".toList ++ typeSeparator ++ "Creature".toList) =
      "Summon".toList :=
  ⟨by decide,
    (getMainCardType_ignores_subtypes "Summon".toList "Creature".toList (by decide)).trans
      (by decide)⟩

/-! ## Facts about the map -/

theorem value_increment_self (m : QMap) (key : QString) :
    QMap.value (QMap.increment m key) key = QMap.value m key + 1 := by
  induction m with
  | nil => simp [QMap.increment, QMap.value]
  | cons e rest ih =>
    obtain ⟨k, v⟩ := e
    by_cases h : k = key
    · simp [QMap.increment, QMap.value, h]
    · simp [QMap.increment, QMap.value, h, ih]

theorem value_increment_other (m : QMap) (key other : QString) (hne : other ≠ key) :
    QMap.value (QMap.increment m key) other = QMap.value m other := by
  have hko : ¬ key = other := fun h => hne h.symm
  induction m with
  | nil => simp [QMap.increment, QMap.value, hko]
  | cons e rest ih =>
    obtain ⟨k, v⟩ := e
    by_cases h : k = key
    · subst h
      simp [QMap.increment, QMap.value, hko]
    · by_cases h2 : k = other
      · subst h2
        simp [QMap.increment, QMap.value, h]
      · simp [QMap.increment, QMap.value, h, h2, ih]

theorem keys_increment (m : QMap) (key other : QString) :
    other ∈ QMap.keys (QMap.increment m key) ↔ other = key ∨ other ∈ QMap.keys m := by
  induction m with
  | nil => simp [QMap.increment, QMap.keys]
  | cons e rest ih =>
    obtain ⟨k, v⟩ := e
    by_cases h : k = key
    · subst h
      simp [QMap.increment, QMap.keys]
    · simp only [QMap.keys] at ih
      simp only [QMap.increment, if_neg h, QMap.keys, List.map_cons, List.mem_cons, ih]
      tauto

theorem keys_nodup_increment (m : QMap) (key : QString) (h : (QMap.keys m).Nodup) :
    (QMap.keys (QMap.increment m key)).Nodup := by
  induction m with
  | nil => simp [QMap.increment, QMap.keys]
  | cons e rest ih =>
    obtain ⟨k, v⟩ := e
    have hk : k ∉ QMap.keys rest := (List.nodup_cons.mp h).1
    have hrest : (QMap.keys rest).Nodup := (List.nodup_cons.mp h).2
    by_cases hkey : k = key
    · simpa [QMap.increment, QMap.keys, hkey] using h
    · have hnot : k ∉ QMap.keys (QMap.increment rest key) := by
        rw [keys_increment]
        rintro (h1 | h1)
        · exact hkey h1
        · exact hk h1
      have := List.nodup_cons.mpr ⟨hnot, ih hrest⟩
      simpa [QMap.increment, QMap.keys, hkey] using this

theorem values_sum_increment (m : QMap) (key : QString) :
    (QMap.values (QMap.increment m key)).sum = (QMap.values m).sum + 1 := by
  induction m with
  | nil => simp [QMap.increment, QMap.values]
  | cons e rest ih =>
    obtain ⟨k, v⟩ := e
    by_cases h : k = key
    · simp [QMap.increment, QMap.values, h]; ring
    · simp only [QMap.values] at ih
      simp [QMap.increment, QMap.values, h, ih]; ring

theorem values_pos_increment (m : QMap) (key : QString) (h : ∀ e ∈ m, 1 ≤ e.2) :
    ∀ e ∈ QMap.increment m key, 1 ≤ e.2 := by
  induction m with
  | nil => simp [QMap.increment]
  | cons e rest ih =>
    obtain ⟨k, v⟩ := e
    have hv : 1 ≤ v := h (k, v) (List.mem_cons_self _ _)
    have hrest : ∀ e ∈ rest, 1 ≤ e.2 := fun e he => h e (List.mem_cons_of_mem _ he)
    by_cases hkey : k = key
    · intro e he
      simp only [QMap.increment, if_pos hkey, List.mem_cons] at he
      rcases he with he | he
      · rw [he]; show 1 ≤ v + 1; omega
      · exact hrest e he
    · intro e he
      simp only [QMap.increment, if_neg hkey, List.mem_cons] at he
      rcases he with he | he
      · rw [he]; exact hv
      · exact ih hrest e he

theorem value_foldl_increment (labels : List QString) (m : QMap) (label : QString) :
    QMap.value (labels.foldl QMap.increment m) label =
      QMap.value m label + (labels.count label : Nat) := by
  induction labels generalizing m with
  | nil => simp
  | cons l ls ih =>
    rw [List.foldl_cons, ih]
    by_cases h : l = label
    · subst h
      rw [value_increment_self, List.count_cons_self]
      push_cast; ring
    · have h2 : label ≠ l := fun h3 => h h3.symm
      rw [value_increment_other _ _ _ h2, List.count_cons_of_ne h2]

theorem keys_foldl_increment (labels : List QString) (m : QMap) (label : QString) :
    label ∈ QMap.keys (labels.foldl QMap.increment m) ↔ label ∈ labels ∨ label ∈ QMap.keys m := by
  induction labels generalizing m with
  | nil => simp
  | cons l ls ih =>
    rw [List.foldl_cons, ih, keys_increment, List.mem_cons]
    tauto

theorem keys_nodup_foldl_increment (labels : List QString) (m : QMap)
    (h : (QMap.keys m).Nodup) : (QMap.keys (labels.foldl QMap.increment m)).Nodup := by
  induction labels generalizing m with
  | nil => simpa using h
  | cons l ls ih => exact ih _ (keys_nodup_increment m l h)

theorem values_sum_foldl_increment (labels : List QString) (m : QMap) :
    (QMap.values (labels.foldl QMap.increment m)).sum = (QMap.values m).sum + labels.length := by
  induction labels generalizing m with
  | nil => simp
  | cons l ls ih =>
    rw [List.foldl_cons, ih, values_sum_increment, List.length_cons]
    push_cast; ring

theorem values_pos_foldl_increment (labels : List QString) (m : QMap)
    (h : ∀ e ∈ m, 1 ≤ e.2) : ∀ e ∈ labels.foldl QMap.increment m, 1 ≤ e.2 := by
  induction labels generalizing m with
  | nil => simpa using h
  | cons l ls ih => exact ih _ (values_pos_increment m l h)

/-! ## Facts about the statistics pass -/

theorem containsCI_lower_land (s : QString) :
    containsCI s "land".toList = containsCI s "Land".toList := rfl

theorem containsCI_lower_creature (s : QString) :
    containsCI s "creature".toList = containsCI s "Creature".toList := rfl

theorem typeLineContains_lower_land :
    typeLineContains "land".toList = typeLineContains "Land".toList := by
  funext card
  cases card with
  | none => rfl
  | some c => simp only [typeLineContains, containsCI_lower_land]

theorem typeLineContains_lower_creature :
    typeLineContains "creature".toList = typeLineContains "Creature".toList := by
  funext card
  cases card with
  | none => rfl
  | some c => simp only [typeLineContains, containsCI_lower_creature]

theorem tableCardStep_eq (self : GameInfoOverlay) (card : Option CardItem) :
    tableCardStep self card =
      { self with
        landCount := self.landCount + if typeLineContains "Land".toList card then 1 else 0,
        creatureCount :=
          self.creatureCount + if typeLineContains "Creature".toList card then 1 else 0 } := by
  cases card with
  | none => simp [tableCardStep, typeLineContains]
  | some c =>
    cases he : c.isEmpty
    · simp only [tableCardStep, typeLineContains, he]
      cases containsCI c.cardType "Land".toList <;>
        cases containsCI c.cardType "Creature".toList <;> simp
    · simp [tableCardStep, typeLineContains, he]

theorem foldl_tableCardStep (cards : CardList) (self : GameInfoOverlay) :
    cards.foldl tableCardStep self =
      { self with
        landCount := self.landCount + (cards.countP (typeLineContains "Land".toList) : Nat),
        creatureCount :=
          self.creatureCount + (cards.countP (typeLineContains "Creature".toList) : Nat) } := by
  induction cards generalizing self with
  | nil => simp
  | cons card rest ih =>
    rw [List.foldl_cons, ih, tableCardStep_eq, List.countP_cons, List.countP_cons]
    cases typeLineContains "Land".toList card <;>
      cases typeLineContains "Creature".toList card <;>
      simp <;> (try constructor) <;> ring

theorem graveCardStep_eq (self : GameInfoOverlay) (card : Option CardItem) :
    graveCardStep self card =
      { self with
        graveyardTypes := (graveyardLabels [card]).foldl QMap.increment self.graveyardTypes } := by
  cases card with
  | none => simp [graveCardStep, graveyardLabels, isClassified]
  | some c =>
    cases he : c.isEmpty
    · cases hm : (getMainCardType c.cardType).isEmpty <;>
        simp [graveCardStep, graveyardLabels, isClassified, he, hm]
    · simp [graveCardStep, graveyardLabels, isClassified, he]

theorem graveyardLabels_cons (card : Option CardItem) (rest : CardList) :
    graveyardLabels (card :: rest) = graveyardLabels [card] ++ graveyardLabels rest := by
  unfold graveyardLabels
  rw [← List.filterMap_append, ← List.filter_append]
  rfl

theorem graveyardLabels_append (before after : CardList) :
    graveyardLabels (before ++ after) = graveyardLabels before ++ graveyardLabels after := by
  unfold graveyardLabels
  rw [List.filter_append, List.filterMap_append]

theorem foldl_graveCardStep (cards : CardList) (self : GameInfoOverlay) :
    cards.foldl graveCardStep self =
      { self with
        graveyardTypes :=
          (graveyardLabels cards).foldl QMap.increment self.graveyardTypes } := by
  induction cards generalizing self with
  | nil => simp [graveyardLabels]
  | cons card rest ih =>
    rw [List.foldl_cons, ih, graveCardStep_eq, graveyardLabels_cons card rest, List.foldl_append]

theorem calculateStatistics_player (self : GameInfoOverlay) :
    (calculateStatistics self).player = self.player := by
  unfold calculateStatistics
  cases hp : self.player with
  | none => simp [hp]
  | some player =>
    obtain ⟨tableZone, graveZone⟩ := player
    cases tableZone <;> cases graveZone <;>
      simp [foldl_tableCardStep, foldl_graveCardStep]

theorem calculateStatistics_statistics (self : GameInfoOverlay) (player : Player)
    (hplayer : self.player = some player) :
    (calculateStatistics self).statistics =
      aggregate (zoneCards player.tableZone) (zoneCards player.graveZone) := by
  unfold calculateStatistics
  rw [hplayer]
  obtain ⟨tableZone, graveZone⟩ := player
  cases tableZone <;> cases graveZone <;>
    simp [foldl_tableCardStep, foldl_graveCardStep, GameInfoOverlay.statistics, aggregate,
      zoneCards, graveyardLabels]

theorem calculateStatistics_no_player (self : GameInfoOverlay) (hplayer : self.player = none) :
    calculateStatistics self = self := by
  unfold calculateStatistics
  rw [hplayer]

theorem count_graveyardLabels (graveyard : CardList) (label : QString) (hne : label ≠ []) :
    (graveyardLabels graveyard).count label = graveyard.countP (classifiesAs label) := by
  induction graveyard with
  | nil => rfl
  | cons card rest ih =>
    rw [graveyardLabels_cons, List.count_append, ih, List.countP_cons]
    cases card with
    | none => simp [graveyardLabels, isClassified, classifiesAs]
    | some c =>
      cases he : c.isEmpty
      · by_cases hl : getMainCardType c.cardType = label
        · have hm : getMainCardType c.cardType ≠ [] := by rw [hl]; exact hne
          simp [graveyardLabels, isClassified, classifiesAs, he, hl, hm, hne]
          omega
        · by_cases hm : getMainCardType c.cardType = []
          · simp [graveyardLabels, isClassified, classifiesAs, he, hl, hm, hne]
          · have hcount : List.count label [getMainCardType c.cardType] = 0 :=
              List.count_eq_zero.mpr (by simpa using fun h => hl h.symm)
            simp [graveyardLabels, isClassified, classifiesAs, he, hl, hm, hcount]
      · simp [graveyardLabels, isClassified, classifiesAs, he]

theorem length_graveyardLabels (graveyard : CardList) :
    (graveyardLabels graveyard).length = graveyard.countP isClassified := by
  induction graveyard with
  | nil => rfl
  | cons card rest ih =>
    rw [graveyardLabels_cons, List.length_append, ih, List.countP_cons]
    cases card with
    | none => simp [graveyardLabels, isClassified]
    | some c =>
      cases hc : isClassified (some c)
      · simp [graveyardLabels, hc]
      · simp [graveyardLabels, hc]; omega

theorem nil_not_mem_graveyardLabels (graveyard : CardList) : [] ∉ graveyardLabels graveyard := by
  intro h
  unfold graveyardLabels at h
  rw [List.mem_filterMap] at h
  obtain ⟨card, hcard, hlabel⟩ := h
  have hcls := (List.mem_filter.mp hcard).2
  cases card with
  | none => simp at hlabel
  | some c =>
    simp only [Option.map_some', Option.some.injEq] at hlabel
    simp [isClassified, hlabel] at hcls

theorem aggregate_nil : aggregate [] [] = Statistics.zero := rfl

theorem zoneCards_of_absentOrEmpty (zone : Option CardList) (h : zoneAbsentOrEmpty zone = true) :
    zoneCards zone = [] := by
  cases zone with
  | none => rfl
  | some cards =>
    cases cards with
    | nil => rfl
    | cons c cs => simp [zoneAbsentOrEmpty] at h

theorem boundsHold_calculateStatistics (self : GameInfoOverlay) (h : self.BoundsHold) :
    (calculateStatistics self).BoundsHold := by
  cases hp : self.player with
  | none => rw [calculateStatistics_no_player self hp]; exact h
  | some player =>
    have hs := calculateStatistics_statistics self player hp
    have h1 : (calculateStatistics self).permanentCount =
        ((zoneCards player.tableZone).length : Int) := congrArg Statistics.permanentCount hs
    have h2 : (calculateStatistics self).landCount =
        (((zoneCards player.tableZone).countP (typeLineContains "Land".toList) : Nat) : Int) :=
      congrArg Statistics.landCount hs
    have h3 : (calculateStatistics self).creatureCount =
        (((zoneCards player.tableZone).countP (typeLineContains "Creature".toList) : Nat) : Int) :=
      congrArg Statistics.creatureCount hs
    have h4 : (calculateStatistics self).graveyardTypes =
        (graveyardLabels (zoneCards player.graveZone)).foldl QMap.increment [] :=
      congrArg Statistics.graveyardTypeCounts hs
    have hl := List.countP_le_length (typeLineContains "Land".toList)
      (l := zoneCards player.tableZone)
    have hc := List.countP_le_length (typeLineContains "Creature".toList)
      (l := zoneCards player.tableZone)
    refine ⟨?_, ?_, ?_, ?_, ?_⟩
    · rw [h2]; exact Int.natCast_nonneg _
    · rw [h1, h2]; exact_mod_cast hl
    · rw [h3]; exact Int.natCast_nonneg _
    · rw [h1, h3]; exact_mod_cast hc
    · rw [h4]
      exact values_pos_foldl_increment _ [] (by simp)

theorem boundsHold_handle (self : GameInfoOverlay) (event : Event) (h : self.BoundsHold) :
    (self.handle event).BoundsHold := by
  cases event with
  | zonesChanged now => exact h
  | cardCountChanged => exact boundsHold_calculateStatistics self h

theorem boundsHold_run (events : List Event) (self : GameInfoOverlay) (h : self.BoundsHold) :
    (self.run events).BoundsHold := by
  induction events generalizing self with
  | nil => exact h
  | cons e es ih => exact ih _ (boundsHold_handle self e h)

theorem boundsHold_construct (player : Option Player) :
    (GameInfoOverlay.construct player).BoundsHold := by
  apply boundsHold_calculateStatistics
  simp [GameInfoOverlay.BoundsHold]

theorem run_no_player (events : List Event) (self : GameInfoOverlay) (h : self.player = none) :
    self.run events = self := by
  induction events with
  | nil => rfl
  | cons e es ih =>
    have hstep : self.handle e = self := by
      cases e with
      | zonesChanged now =>
        obtain ⟨p, a, b, c, d⟩ := self
        simp only at h
        subst h
        rfl
      | cardCountChanged => exact calculateStatistics_no_player self h
    show (self.handle e).run es = self
    rw [hstep, ih]

theorem updateStatistics_no_cards (self : GameInfoOverlay) (player : Player)
    (hplayer : self.player = some player) (hempty : player.hasNoCards) :
    (updateStatistics self).statistics = Statistics.zero := by
  unfold updateStatistics
  rw [calculateStatistics_statistics self player hplayer,
    zoneCards_of_absentOrEmpty _ hempty.1, zoneCards_of_absentOrEmpty _ hempty.2, aggregate_nil]

theorem run_no_cards (events : List Event) (self : GameInfoOverlay)
    (hplayer : ∃ player, self.player = some player ∧ player.hasNoCards)
    (hzero : self.statistics = Statistics.zero)
    (hevents : ∀ now, Event.zonesChanged now ∈ events → now.hasNoCards) :
    (self.run events).statistics = Statistics.zero := by
  induction events generalizing self with
  | nil => exact hzero
  | cons e es ih =>
    have hes : ∀ now, Event.zonesChanged now ∈ es → now.hasNoCards := fun now hn =>
      hevents now (List.mem_cons_of_mem _ hn)
    obtain ⟨player, hp, hnone⟩ := hplayer
    cases e with
    | zonesChanged now =>
      refine ih _ ⟨now, ?_, hevents now (List.mem_cons_self _ _)⟩ hzero hes
      simp [GameInfoOverlay.handle, hp]
    | cardCountChanged =>
      refine ih _ ⟨player, ?_, hnone⟩ (updateStatistics_no_cards self player hp hnone) hes
      exact (calculateStatistics_player self).trans hp

/-! ## The statistics pass's contract -/

/-- C5: for a present player with a battlefield, `calculateStatistics` sets
`permanentCount` to the raw length of the collection, `landCount` to the number of
present, non-empty cards whose type line contains `land` as a case-insensitive
substring, and `creatureCount` likewise for `creature`, whatever was stored before. -/
theorem calculateStatistics_battlefield (self : GameInfoOverlay) (player : Player)
    (battlefield : CardList) (hplayer : self.player = some player)
    (htable : player.tableZone = some battlefield) :
    (calculateStatistics self).permanentCount = (battlefield.length : Int) ∧
    (calculateStatistics self).landCount =
      ((battlefield.countP (typeLineContains "land".toList) : Nat) : Int) ∧
    (calculateStatistics self).creatureCount =
      ((battlefield.countP (typeLineContains "creature".toList) : Nat) : Int) := by
  have hs := calculateStatistics_statistics self player hplayer
  rw [htable] at hs
  rw [typeLineContains_lower_land, typeLineContains_lower_creature]
  exact ⟨congrArg Statistics.permanentCount hs, congrArg Statistics.landCount hs,
    congrArg Statistics.creatureCount hs⟩

/-- C5 at the claim's example: on the battlefield `Basic Land`, `Creature`, empty card the
pass stores `permanentCount` 3, `landCount` 1 and `creatureCount` 1, whatever was
stored before. -/
theorem calculateStatistics_battlefield_witness :
    (calculateStatistics exampleOverlay).permanentCount = 3 ∧
    (calculateStatistics exampleOverlay).landCount = 1 ∧
    (calculateStatistics exampleOverlay).creatureCount = 1 :=
  have h := calculateStatistics_battlefield exampleOverlay _ exampleBattlefield rfl rfl
  ⟨h.1.trans (by decide), h.2.1.trans (by decide), h.2.2.trans (by decide)⟩

/-- C6: for a present player with a graveyard, after `calculateStatistics` the map
`graveyardTypes` holds for every label (a non-empty string) exactly the number of
present, non-empty graveyard cards whose classification is that string; its keys are
the labels with at least one such card, each once; the empty string is not a key; and
its values sum to the number of present, non-empty cards with a non-empty
classification. -/
theorem calculateStatistics_graveyard (self : GameInfoOverlay) (player : Player)
    (graveyard : CardList) (hplayer : self.player = some player)
    (hgrave : player.graveZone = some graveyard) :
    (∀ label, label ≠ [] →
      QMap.value (calculateStatistics self).graveyardTypes label =
        ((graveyard.countP (classifiesAs label) : Nat) : Int)) ∧
    (∀ label, label ∈ QMap.keys (calculateStatistics self).graveyardTypes ↔
      label ≠ [] ∧ 0 < graveyard.countP (classifiesAs label)) ∧
    (QMap.keys (calculateStatistics self).graveyardTypes).Nodup ∧
    [] ∉ QMap.keys (calculateStatistics self).graveyardTypes ∧
    (QMap.values (calculateStatistics self).graveyardTypes).sum =
      ((graveyard.countP isClassified : Nat) : Int) := by
  have hs := calculateStatistics_statistics self player hplayer
  rw [hgrave] at hs
  have hm : (calculateStatistics self).graveyardTypes =
      (graveyardLabels graveyard).foldl QMap.increment [] :=
    congrArg Statistics.graveyardTypeCounts hs
  have hkeys : ∀ label, label ∈ QMap.keys (calculateStatistics self).graveyardTypes ↔
      label ∈ graveyardLabels graveyard := by
    intro label
    rw [hm, keys_foldl_increment]
    simp [QMap.keys]
  refine ⟨?_, ?_, ?_, ?_, ?_⟩
  · intro label hne
    rw [hm, value_foldl_increment, count_graveyardLabels graveyard label hne]
    simp [QMap.value]
  · intro label
    rw [hkeys]
    constructor
    · intro hmem
      have hne : label ≠ [] := fun h => nil_not_mem_graveyardLabels graveyard (h ▸ hmem)
      refine ⟨hne, ?_⟩
      rw [← count_graveyardLabels graveyard label hne]
      exact List.count_pos_iff.mpr hmem
    · rintro ⟨hne, hpos⟩
      rw [← count_graveyardLabels graveyard label hne] at hpos
      exact List.count_pos_iff.mp hpos
  · rw [hm]
    exact keys_nodup_foldl_increment _ [] (by simp [QMap.keys])
  · rw [hkeys]
    exact nil_not_mem_graveyardLabels graveyard
  · rw [hm, values_sum_foldl_increment, length_graveyardLabels]
    simp [QMap.values]

/-- C6 at the claim's example: with two graveyard cards classifying to `Instant` and one
to `Sorcery` the map holds `Instant` 2 and `Sorcery` 1 and nothing else, with sum 3. -/
theorem calculateStatistics_graveyard_witness :
    QMap.value (calculateStatistics exampleOverlay).graveyardTypes "Instant".toList = 2 ∧
    QMap.value (calculateStatistics exampleOverlay).graveyardTypes "Sorcery".toList = 1 ∧
    (QMap.values (calculateStatistics exampleOverlay).graveyardTypes).sum = 3 ∧
    (calculateStatistics exampleOverlay).graveyardTypes =
      [("Instant".toList, 2), ("Sorcery".toList, 1)] :=
  have h := calculateStatistics_graveyard exampleOverlay _ exampleGraveyard rfl rfl
  ⟨(h.1 "Instant".toList (by decide)).trans (by decide),
    (h.1 "Sorcery".toList (by decide)).trans (by decide),
    h.2.2.2.2.trans (by decide), by decide⟩

/-- C7: in every state the overlay reaches, after construction with or without a player
and after any sequence of zone changes and `updateStatistics` calls,
`0 ≤ landCount ≤ permanentCount`, `0 ≤ creatureCount ≤ permanentCount`, and every value
stored in `graveyardTypes` is at least 1. -/
theorem statistics_bounds (player : Option Player) (events : List Event) :
    0 ≤ ((GameInfoOverlay.construct player).run events).landCount ∧
    ((GameInfoOverlay.construct player).run events).landCount ≤
      ((GameInfoOverlay.construct player).run events).permanentCount ∧
    0 ≤ ((GameInfoOverlay.construct player).run events).creatureCount ∧
    ((GameInfoOverlay.construct player).run events).creatureCount ≤
      ((GameInfoOverlay.construct player).run events).permanentCount ∧
    ∀ entry ∈ ((GameInfoOverlay.construct player).run events).graveyardTypes, 1 ≤ entry.2 :=
  boundsHold_run events _ (boundsHold_construct player)

/-- C8: missing context gives the all-zero statistics. An overlay constructed with no
player holds them after construction and after any sequence of events; an overlay
whose player's zones are each absent or empty holds them after construction, after
every `updateStatistics` call made in such a state, and after any sequence of events
that keeps the zones absent or empty. -/
theorem statistics_zero_without_context :
    (∀ events : List Event,
      ((GameInfoOverlay.construct none).run events).statistics = Statistics.zero) ∧
    (∀ player : Player, player.hasNoCards →
      (GameInfoOverlay.construct (some player)).statistics = Statistics.zero ∧
      (∀ self : GameInfoOverlay, self.player = some player →
        (updateStatistics self).statistics = Statistics.zero) ∧
      (∀ events : List Event, (∀ now, Event.zonesChanged now ∈ events → now.hasNoCards) →
        ((GameInfoOverlay.construct (some player)).run events).statistics =
          Statistics.zero)) := by
  refine ⟨?_, ?_⟩
  · intro events
    rw [run_no_player events _ (by rfl)]
    rfl
  · intro player hempty
    have hc : (GameInfoOverlay.construct (some player)).statistics = Statistics.zero :=
      updateStatistics_no_cards _ player rfl hempty
    refine ⟨hc, fun self hp => updateStatistics_no_cards self player hp hempty, ?_⟩
    intro events hevents
    refine run_no_cards events _ ⟨player, ?_, hempty⟩ hc hevents
    exact calculateStatistics_player _

theorem run_player_some (events : List Event) (self : GameInfoOverlay)
    (h : ∃ now, self.player = some now) : ∃ now, (self.run events).player = some now := by
  induction events generalizing self with
  | nil => exact h
  | cons e es ih =>
    obtain ⟨now, hnow⟩ := h
    cases e with
    | zonesChanged next => exact ih _ ⟨next, by simp [GameInfoOverlay.handle, hnow]⟩
    | cardCountChanged => exact ih _ ⟨now, (calculateStatistics_player self).trans hnow⟩

/-- C9: for an overlay with a present player, the statistics stored right after
construction and right after every `updateStatistics` call equal the aggregation of
the zones' contents at that moment, an absent zone counting as empty, whatever was
stored before and whatever events came before; and once a card with a non-empty
classification has been added to the graveyard and the notification delivered, the
map's value for that card's label is one more than a recomputation gave without the
card, the other labels' values being the same. -/
theorem updateStatistics_recomputes (player : Player) :
    (GameInfoOverlay.construct (some player)).statistics =
      aggregate (zoneCards player.tableZone) (zoneCards player.graveZone) ∧
    (∀ self : GameInfoOverlay, self.player = some player →
      (updateStatistics self).statistics =
        aggregate (zoneCards player.tableZone) (zoneCards player.graveZone)) ∧
    (∀ self other : GameInfoOverlay, self.player = some player → other.player = some player →
      (updateStatistics self).statistics = (updateStatistics other).statistics) ∧
    (∀ events : List Event, ∃ now : Player,
      ((GameInfoOverlay.construct (some player)).run events).player = some now ∧
      (((GameInfoOverlay.construct (some player)).run events).handle
          .cardCountChanged).statistics =
        aggregate (zoneCards now.tableZone) (zoneCards now.graveZone)) ∧
    (∀ (self : GameInfoOverlay) (before after : CardList) (card : CardItem),
      self.player = some player → player.graveZone = some (before ++ after) →
      card.isEmpty = false → getMainCardType card.cardType ≠ [] →
      ∀ label,
        QMap.value
          ((self.handle (.zonesChanged
              { player with graveZone := some (before ++ some card :: after) })).handle
            .cardCountChanged).graveyardTypes label =
        QMap.value (updateStatistics self).graveyardTypes label +
          if label = getMainCardType card.cardType then 1 else 0) := by
  refine ⟨calculateStatistics_statistics _ player rfl,
    fun self hp => calculateStatistics_statistics self player hp,
    fun self other hs ho => ?_, fun events => ?_, ?_⟩
  · exact (calculateStatistics_statistics self player hs).trans
      (calculateStatistics_statistics other player ho).symm
  · obtain ⟨now, hnow⟩ := run_player_some events (GameInfoOverlay.construct (some player))
      ⟨player, calculateStatistics_player _⟩
    exact ⟨now, hnow, calculateStatistics_statistics _ now hnow⟩
  · intro self before after card hp hgrave hempty hlabel label
    have hold : (updateStatistics self).graveyardTypes =
        (graveyardLabels (before ++ after)).foldl QMap.increment [] := by
      have := calculateStatistics_statistics self player hp
      rw [hgrave] at this
      exact congrArg Statistics.graveyardTypeCounts this
    have hnew : ((self.handle (.zonesChanged
          { player with graveZone := some (before ++ some card :: after) })).handle
          .cardCountChanged).graveyardTypes =
        (graveyardLabels (before ++ some card :: after)).foldl QMap.increment [] := by
      have := calculateStatistics_statistics
        (self.handle (.zonesChanged
          { player with graveZone := some (before ++ some card :: after) }))
        { player with graveZone := some (before ++ some card :: after) }
        (by simp [GameInfoOverlay.handle, hp])
      exact congrArg Statistics.graveyardTypeCounts this
    have hcard : graveyardLabels [some card] = [getMainCardType card.cardType] := by
      simp [graveyardLabels, isClassified, hempty, hlabel]
    rw [hold, hnew, value_foldl_increment, value_foldl_increment, graveyardLabels_append,
      graveyardLabels_append, graveyardLabels_cons, hcard]
    by_cases h : label = getMainCardType card.cardType
    · subst h
      simp [List.count_append]
      ring
    · have h2 : getMainCardType card.cardType ≠ label := fun h3 => h h3.symm
      simp [List.count_append, List.count_cons_of_ne h, h]

/-- C9 at a concrete run: the overlay is constructed on a graveyard holding one
`Instant`; a `Sorcery` is added and the notification delivered; the map then reads
`Instant` 1, `Sorcery` 1. -/
theorem updateStatistics_recomputes_witness :
    (((GameInfoOverlay.construct
        (some { tableZone := some [], graveZone := some [some ⟨false, "Instant".toList⟩] })).handle
      (.zonesChanged
        { tableZone := some [],
          graveZone := some [some ⟨false, "Instant".toList⟩,
            some ⟨false, "Sorcery".toList⟩] })).handle .cardCountChanged).statistics =
      aggregate [] [some ⟨false, "Instant".toList⟩, some ⟨false, "Sorcery".toList⟩] ∧
    aggregate [] [some ⟨false, "Instant".toList⟩, some ⟨false, "Sorcery".toList⟩] =
      { permanentCount := 0, landCount := 0, creatureCount := 0,
        graveyardTypeCounts := [("Instant".toList, 1), ("Sorcery".toList, 1)] } :=
  ⟨(updateStatistics_recomputes
      { tableZone := some [],
        graveZone := some [some ⟨false, "Instant".toList⟩,
          some ⟨false, "Sorcery".toList⟩] }).2.1 _ rfl,
    by decide⟩

end Cockatrice
